import Mathlib

/-!
Shallow embedding of `pgn_parser_movelevel_features.py` from the
cs145-f2022-project3 repository: a streaming PGN feature extractor that
turns a line stream of chess games into batched tabular records plus a
schema manifest.

The chess rules engine (`chess.pgn.read_game` from python-chess) is an
external capability; it is modelled as a function from the movetext line
to the ordered list of move nodes (each optionally annotated with a clock
reading and an engine evaluation), with total ply count equal to the
length of that list.
-/

namespace PGN

/-! ### Python string primitives -/

/-- `s.strip()` on a character list: remove leading and trailing whitespace. -/
def pyStripChars (l : List Char) : List Char :=
  ((l.dropWhile Char.isWhitespace).reverse.dropWhile Char.isWhitespace).reverse

/-- Python `s.strip()`. -/
def pyStrip (s : String) : String := String.mk (pyStripChars s.data)

/-- Python slice `s[1:-1]`: drop the first and the last character. -/
def pySlice1 (s : String) : String := String.mk ((s.data.drop 1).dropLast)

/-- Helper for Python `s.split()`: split on whitespace runs, dropping empties;
`acc` holds the current token reversed. -/
def splitWsAux : List Char → List Char → List (List Char)
  | [], acc => if acc = [] then [] else [acc.reverse]
  | c :: cs, acc =>
    if c.isWhitespace then
      if acc = [] then splitWsAux cs [] else acc.reverse :: splitWsAux cs []
    else splitWsAux cs (c :: acc)

/-- Python `s.split()` with no separator argument. -/
def pySplit (s : String) : List String :=
  (splitWsAux s.data []).map String.mk

/-- Python `" ".join(parts)`. -/
def joinSp : List String → String
  | [] => ""
  | [x] => x
  | x :: xs => x ++ " " ++ joinSp xs

/-! ### Feature values and Python dict -/

/-- A scalar stored in the features dict: header values and move notation are
strings, `Ply` / evaluations / the mate flag are ints, and `null` models
Python `None` (as stored by `clock()` or `score()` when absent). -/
inductive FVal where
  | str (s : String)
  | int (n : Int)
  | null
deriving DecidableEq, Repr

/-- The features mapping: a Python dict as an insertion-ordered association
list with unique keys. -/
abbrev Features := List (String × FVal)

/-- Python dict assignment `d[k] = v`: overwrite in place if the key exists,
else append. -/
def dictSet (d : Features) (k : String) (v : FVal) : Features :=
  if d.any (fun p => p.1 = k) then
    d.map (fun p => if p.1 = k then (k, v) else p)
  else d ++ [(k, v)]

/-- Python `k in d`. -/
def hasKey (d : Features) (k : String) : Bool :=
  d.any (fun p => p.1 = k)

/-- Python `d[k]` as an option. -/
def dictGet (d : Features) (k : String) : Option FVal :=
  (d.find? (fun p => p.1 = k)).map Prod.snd

/-! ### The external chess rules engine -/

/-- An engine evaluation attached to a move node (`nextpos.eval()`):
`score` is `nextpos.eval().white().score()` (absent for mate scores),
`isMate` is `nextpos.eval().is_mate()`. -/
structure EvalAnn where
  score : Option Int
  isMate : Bool
deriving DecidableEq, Repr

/-- One move node of the parsed game: its UCI notation, optional clock
annotation, optional evaluation annotation. -/
structure MoveNode where
  uci : String
  clock : Option Int
  evalAnn : Option EvalAnn
deriving DecidableEq, Repr

/-- The external chess rules engine: movetext line to ordered move nodes.
`game.end().ply()` is the length of this list. -/
def Engine := String → List MoveNode

/-! ### parse_pgn -/

/-- One iteration of the header pass of `parse_pgn`:
`feature = line[1:-1].split(); key = feature[0];
value = " ".join(feature[1:])[1:-1]`.
Returns `none` when `feature` is empty, where Python raises `IndexError`. -/
def parseHeaderLine (line : String) : Option (String × String) :=
  match pySplit (pySlice1 line) with
  | [] => none
  | key :: rest => some (key, pySlice1 (joinSp rest))

/-- The header pass: fold the header lines into the features dict. -/
def headerPass : List String → Features → Option Features
  | [], fs => some fs
  | l :: ls, fs =>
    match parseHeaderLine l with
    | none => none
    | some (k, v) => headerPass ls (dictSet fs k (.str v))

/-- Decimal rendering of a natural number with explicit fuel,
least-significant digit computed last. -/
def natDecAux : Nat → Nat → List Char
  | 0, _ => []
  | fuel + 1, n =>
    if n = 0 then [] else natDecAux fuel (n / 10) ++ [Char.ofNat (48 + n % 10)]

/-- Decimal rendering of a natural number, as produced by a Python f-string. -/
def natDecStr (n : Nat) : String :=
  if n = 0 then "0" else String.mk (natDecAux n n)

/-- The per-ply feature-name prefix with a field suffix appended:
`f'{player}_move{movenum}' ++ sfx` with `player = 'white' if ply % 2 == 1
else 'black'` and `movenum = math.ceil(ply/2)`. -/
def plyKeyStr (ply : Nat) (sfx : String) : String :=
  (if ply % 2 = 1 then "white" else "black") ++ "_move" ++ natDecStr ((ply + 1) / 2) ++ sfx

/-- The body of the per-ply loop of `parse_pgn` at ply index `ply`:
`nextpos` after `ply` steps is move node `ply - 1` of the game. -/
def plyFeature (moves : List MoveNode) (ply : Nat) (fs : Features) : Features :=
  match moves[ply - 1]? with
  | none => fs
  | some node =>
    let fs := dictSet fs (plyKeyStr ply "_move") (.str node.uci)
    let fs := dictSet fs (plyKeyStr ply "_timespent")
      (match node.clock with | some c => .int c | none => .null)
    match node.evalAnn with
    | none => fs
    | some e =>
      let fs := dictSet fs (plyKeyStr ply "_evalaftermove")
        (match e.score with | some s => .int s | none => .null)
      if e.isMate then dictSet fs (plyKeyStr ply "_eval_is_mate") (.int 1) else fs

/-- The ply indices visited by `range(1, min(max_ply+1, Ply))`. -/
def plyIndices (maxPly ply : Nat) : List Nat :=
  List.range' 1 (min (maxPly + 1) ply - 1)

/-- The per-ply pass of `parse_pgn`. -/
def plyPass (moves : List MoveNode) (maxPly : Nat) (fs : Features) : Features :=
  (plyIndices maxPly moves.length).foldl (fun fs ply => plyFeature moves ply fs) fs

/-- `parse_pgn(lines, max_ply)`: header pass over `lines[:-1]`, then `Ply`
from the engine's parse of `lines[-1]`, then the per-ply loop. `none` models
an uncaught Python exception (empty `lines`, or a header line on which
`feature[0]` raises `IndexError`). -/
def parse_pgn (lines : List String) (engine : Engine) (maxPly : Nat) : Option Features :=
  match headerPass lines.dropLast [] with
  | none => none
  | some fs =>
    match lines.getLast? with
    | none => none
    | some movetext =>
      let moves := engine movetext
      let fs := dictSet fs "Ply" (.int moves.length)
      some (plyPass moves maxPly fs)

/-! ### The streaming batch loop (`batch_load_files_fromconsole`) -/

/-- The mutable state of the processing loop, plus the list of batch
artifacts exported so far (each recorded as its ordinal and its rows, the
observable content of the written CSV). -/
structure RunState where
  game_batch : List Features
  currgame : List String
  batchnum : Nat
  schema_columns : Finset String
  line_num : Nat
  exports : List (Nat × List Features)
deriving DecidableEq

/-- The initial loop state. -/
def initState : RunState :=
  { game_batch := [], currgame := [], batchnum := 1, schema_columns := ∅,
    line_num := 0, exports := [] }

/-- The column names of the DataFrame built from a batch (`set(game_df.columns)`):
the union of the row dicts' keys. -/
def dfColumns (batch : List Features) : Finset String :=
  (batch.flatMap (fun r => r.map Prod.fst)).toFinset

/-- One iteration of the `for line in sys.stdin` loop. `none` models an
uncaught exception escaping from `parse_pgn`. -/
def stepLine (engine : Engine) (maxPly batchSize : Nat) (st : RunState)
    (line : String) : Option RunState :=
  if st.line_num < 50000000 then some { st with line_num := st.line_num + 1 }
  else
    let stripped := pyStrip line
    match stripped.data with
    | [] => some st
    | c :: _ =>
      if c.isDigit then
        match parse_pgn (st.currgame ++ [stripped]) engine maxPly with
        | none => none
        | some feats =>
          let gb := st.game_batch ++ [feats]
          if gb.length = batchSize then
            some { game_batch := [], currgame := [], batchnum := st.batchnum + 1,
                   schema_columns := st.schema_columns ∪ dfColumns gb,
                   line_num := st.line_num,
                   exports := st.exports ++ [(st.batchnum, gb)] }
          else
            some { st with game_batch := gb, currgame := [] }
      else some { st with currgame := st.currgame ++ [stripped] }

/-- Run the loop over a whole input stream from a given state. -/
def runLines (engine : Engine) (maxPly batchSize : Nat) (st : RunState)
    (lines : List String) : Option RunState :=
  lines.foldlM (stepLine engine maxPly batchSize) st

/-- The schema manifest's file content: the names sorted lexicographically,
each followed by a newline (`schema.write(attribute + '\n')`). -/
def schemaRender (cols : Finset String) : String :=
  (cols.sort (· ≤ ·)).foldl (fun acc a => acc ++ a ++ "\n") ""

/-- The observable output of one run: every batch artifact (ordinal and
rows), the final schema set, the manifest file content, and the row total
printed by the final progress message
(`(batchnum-1)*batch_size+final_size`). -/
structure RunOutput where
  exports : List (Nat × List Features)
  schemaSet : Finset String
  manifest : String
  totalReported : Nat
deriving DecidableEq

/-- The end-of-stream epilogue: one unconditional final export of the
current (possibly empty) batch, the schema union, and the manifest write.
The leftover `currgame` buffer is discarded. -/
def finalize (batchSize : Nat) (st : RunState) : RunOutput :=
  let schema := st.schema_columns ∪ dfColumns st.game_batch
  { exports := st.exports ++ [(st.batchnum, st.game_batch)]
    schemaSet := schema
    manifest := schemaRender schema
    totalReported := (st.batchnum - 1) * batchSize + st.game_batch.length }

/-- `batch_load_files_fromconsole`: process the whole input stream and
produce the run's observable output, or `none` when an exception aborts
the run. -/
def run (engine : Engine) (maxPly batchSize : Nat) (lines : List String) :
    Option RunOutput :=
  (runLines engine maxPly batchSize initState lines).map (finalize batchSize)

/-- A line that the loop never treats as a movetext terminator: blank after
stripping, or first stripped character not a digit. -/
def nonTerminatorLine (l : String) : Bool :=
  match (pyStrip l).data with
  | [] => true
  | c :: _ => !c.isDigit

/-- The loop invariant behind the batch accounting: ordinals of the emitted
artifacts are consecutive from 1, every emitted artifact is exactly full, the
next ordinal continues the sequence, and the accumulating batch is not yet
full. -/
def goodState (bs : Nat) (st : RunState) : Prop :=
  st.exports.map Prod.fst = List.range' 1 st.exports.length ∧
    (∀ e ∈ st.exports, e.2.length = bs) ∧
    st.batchnum = st.exports.length + 1 ∧
    (0 < bs → st.game_batch.length < bs)

/-- A concrete engine for witnesses: a plain 5-ply game with no annotations. -/
def engFive : Engine := fun _ =>
  [⟨"e2e4", none, none⟩, ⟨"e7e5", none, none⟩, ⟨"g1f3", none, none⟩,
    ⟨"b8c6", none, none⟩, ⟨"f1b5", none, none⟩]

/-- A concrete engine for witnesses: ply 1 evaluated as a forced mate, ply 2
with an ordinary score, ply 3 unannotated. -/
def engMate : Engine := fun _ =>
  [⟨"e2e4", none, some ⟨none, true⟩⟩, ⟨"e7e5", none, some ⟨some 30, false⟩⟩,
    ⟨"g1f3", none, none⟩]

/-- A concrete engine for witnesses: no clock annotations at all. -/
def engNoClock : Engine := fun _ =>
  [⟨"e2e4", none, none⟩, ⟨"e7e5", none, none⟩]

/-- A concrete engine for witnesses: ply 1 carries a clock annotation. -/
def engClock : Engine := fun _ =>
  [⟨"e2e4", some 6000, none⟩, ⟨"e7e5", none, none⟩]

/-- Evaluate a digit string back to a number (inverse of `natDecAux`). -/
def fromDec (l : List Char) : Nat :=
  l.foldl (fun a c => a * 10 + (c.toNat - 48)) 0

/-- The four per-ply field suffixes used by `parse_pgn`. -/
def plySuffixes : List String := ["_move", "_timespent", "_evalaftermove", "_eval_is_mate"]

/-- A key that starts like a per-ply feature name. -/
def plyPrefixed (k : String) : Bool :=
  "white_move".data.isPrefixOf k.data || "black_move".data.isPrefixOf k.data

/-- The keys that `plyFeature` adds (or overwrites) at a given ply index. -/
def producedKeys (moves : List MoveNode) (ply : Nat) : List String :=
  match moves[ply - 1]? with
  | none => []
  | some node =>
    [plyKeyStr ply "_move", plyKeyStr ply "_timespent"] ++
      (match node.evalAnn with
       | none => []
       | some e =>
         [plyKeyStr ply "_evalaftermove"] ++
           (if e.isMate then [plyKeyStr ply "_eval_is_mate"] else []))

/-! ### Auxiliary definitions for the claim statements -/

/-- No header line of the record parses to a key that starts like a per-ply
feature name (`white_move…` / `black_move…`); rules out artificial collisions
between header keys and the per-ply keys. Decidable by evaluation. -/
def headerKeysSafe (hdrs : List String) : Bool :=
  hdrs.all fun l =>
    match parseHeaderLine l with
    | some (k, _) => !(plyPrefixed k)
    | none => true

/-- The value parsed from the last line of `ls` whose parsed key is `k`
(later lines take precedence). -/
def lastHeaderVal (ls : List String) (k : String) : Option String :=
  match ls with
  | [] => none
  | l :: ls =>
    match lastHeaderVal ls k with
    | some v => some v
    | none =>
      match parseHeaderLine l with
      | some (k0, v0) => if k0 = k then some v0 else none
      | none => none

/-- A line the loop classifies as part of a game header: non-blank after
stripping, first character not a digit, and parseable by the header pass. -/
def goodHeaderLine (l : String) : Bool :=
  match (pyStrip l).data with
  | [] => false
  | c :: _ => !c.isDigit && (parseHeaderLine (pyStrip l)).isSome

/-- A line the loop classifies as a movetext terminator: first character of
the stripped line is a digit. -/
def goodMovetext (l : String) : Bool :=
  match (pyStrip l).data with
  | [] => false
  | c :: _ => c.isDigit

/-- A well-formed game record as fed to the loop: classifiable header lines
followed by one movetext line. -/
def goodRecord (hdrs : List String) (mt : String) : Bool :=
  hdrs.all goodHeaderLine && goodMovetext mt

/-! ### Lemmas about the dict model -/

theorem hasKey_dictSet (d : Features) (k k' : String) (v : FVal) :
    hasKey (dictSet d k v) k' = true ↔ k' = k ∨ hasKey d k' = true := by
  unfold hasKey dictSet
  by_cases h : (d.any fun p => p.1 = k) = true
  · rw [if_pos h]
    simp only [List.any_map, List.any_eq_true, Function.comp_apply,
      decide_eq_true_eq] at h ⊢
    constructor
    · rintro ⟨x, hx, hpx⟩
      by_cases hxk : x.1 = k
      · rw [if_pos hxk] at hpx
        exact Or.inl hpx.symm
      · rw [if_neg hxk] at hpx
        exact Or.inr ⟨x, hx, hpx⟩
    · rintro (rfl | ⟨x, hx, hpx⟩)
      · obtain ⟨y, hy, hyk⟩ := h
        exact ⟨y, hy, by rw [if_pos hyk]⟩
      · by_cases hxk : x.1 = k
        · exact ⟨x, hx, by rw [if_pos hxk]; show k = k'; rw [← hxk]; exact hpx⟩
        · exact ⟨x, hx, by rw [if_neg hxk]; exact hpx⟩
  · rw [if_neg h]
    simp only [List.any_append, List.any_cons, List.any_nil, Bool.or_false,
      Bool.or_eq_true, List.any_eq_true, decide_eq_true_eq]
    constructor
    · rintro (⟨x, hx, hpx⟩ | hk)
      · exact Or.inr ⟨x, hx, hpx⟩
      · exact Or.inl hk.symm
    · rintro (rfl | ⟨x, hx, hpx⟩)
      · exact Or.inr rfl
      · exact Or.inl ⟨x, hx, hpx⟩

theorem find?_dictSet_overwrite (d : Features) (k : String) (v : FVal) :
    (d.map (fun p => if p.1 = k then (k, v) else p)).find? (fun p => p.1 = k) =
      if (d.any fun p => p.1 = k) = true then some (k, v) else none := by
  induction d with
  | nil => rfl
  | cons x d ih =>
    by_cases hxk : x.1 = k
    · rw [List.map_cons, if_pos hxk, List.find?_cons_of_pos _ (by simp),
        List.any_cons, if_pos (by simp [hxk])]
    · rw [List.map_cons, if_neg hxk, List.find?_cons_of_neg _ (by simp [hxk]),
        ih, List.any_cons]
      by_cases hd : (d.any fun p => p.1 = k) = true
      · rw [if_pos hd, if_pos (by simp [hd])]
      · rw [if_neg hd, if_neg (by simp [hxk, hd])]

theorem find?_dictSet_other (d : Features) (k k' : String) (v : FVal) (hne : k' ≠ k) :
    (d.map (fun p => if p.1 = k then (k, v) else p)).find? (fun p => p.1 = k') =
      d.find? (fun p => p.1 = k') := by
  induction d with
  | nil => rfl
  | cons x d ih =>
    by_cases hxk : x.1 = k
    · have hxk' : ¬ x.1 = k' := fun hc => hne (hc.symm.trans hxk)
      rw [List.map_cons, if_pos hxk,
        List.find?_cons_of_neg _ (by simp only [decide_eq_true_eq]; exact fun hc => hne hc.symm),
        List.find?_cons_of_neg _ (by simp [hxk']), ih]
    · rw [List.map_cons, if_neg hxk]
      by_cases hxk' : x.1 = k'
      · rw [List.find?_cons_of_pos _ (by simp [hxk']), List.find?_cons_of_pos _ (by simp [hxk'])]
      · rw [List.find?_cons_of_neg _ (by simp [hxk']), List.find?_cons_of_neg _ (by simp [hxk']), ih]

theorem dictGet_dictSet_self (d : Features) (k : String) (v : FVal) :
    dictGet (dictSet d k v) k = some v := by
  unfold dictGet dictSet
  by_cases h : (d.any fun p => p.1 = k) = true
  · rw [if_pos h, find?_dictSet_overwrite, if_pos h]
    rfl
  · rw [if_neg h, List.find?_append]
    have hnone : d.find? (fun p => p.1 = k) = none := by
      rw [List.find?_eq_none]
      intro x hx hpx
      exact h (List.any_eq_true.mpr ⟨x, hx, hpx⟩)
    rw [hnone, List.find?_cons_of_pos _ (by simp)]
    rfl

theorem dictGet_dictSet_ne (d : Features) (k k' : String) (v : FVal) (hne : k' ≠ k) :
    dictGet (dictSet d k v) k' = dictGet d k' := by
  unfold dictGet dictSet
  by_cases h : (d.any fun p => p.1 = k) = true
  · rw [if_pos h, find?_dictSet_other d k k' v hne]
  · rw [if_neg h, List.find?_append]
    have hsing : List.find? (fun p => p.1 = k') [(k, v)] = none := by
      rw [List.find?_cons_of_neg _ (by simp only [decide_eq_true_eq]; exact fun hc => hne hc.symm),
        List.find?_nil]
    rw [hsing]
    cases List.find? (fun p => p.1 = k') d <;> rfl

theorem hasKey_of_dictGet (d : Features) (k : String) (v : FVal)
    (h : dictGet d k = some v) : hasKey d k = true := by
  unfold dictGet at h
  unfold hasKey
  obtain ⟨p, hp⟩ := Option.map_eq_some'.mp h
  have := List.find?_some hp.1
  have hmem := List.mem_of_find?_eq_some hp.1
  exact List.any_eq_true.mpr ⟨p, hmem, this⟩

theorem dictGet_of_hasKey (d : Features) (k : String)
    (h : hasKey d k = true) : ∃ v, dictGet d k = some v := by
  unfold hasKey at h
  obtain ⟨p, hp, hpk⟩ := List.any_eq_true.mp h
  have hs : (d.find? (fun p => p.1 = k)).isSome := List.find?_isSome.mpr ⟨p, hp, hpk⟩
  obtain ⟨q, hq⟩ := Option.isSome_iff_exists.mp hs
  exact ⟨q.2, by unfold dictGet; rw [hq]; rfl⟩

/-! ### Decimal rendering: injectivity via a digit-string evaluator -/

theorem fromDec_append_digit (xs : List Char) (c : Char) :
    fromDec (xs ++ [c]) = 10 * fromDec xs + (c.toNat - 48) := by
  unfold fromDec
  rw [List.foldl_append]
  simp [Nat.mul_comm]

theorem toNat_ofNat_digit (d : Nat) (h : d < 10) :
    (Char.ofNat (48 + d)).toNat = 48 + d := by
  interval_cases d <;> decide

theorem fromDec_natDecAux : ∀ fuel n, n ≤ fuel → fromDec (natDecAux fuel n) = n := by
  intro fuel
  induction fuel with
  | zero => intro n hn; interval_cases n; rfl
  | succ f ih =>
    intro n hn
    unfold natDecAux
    by_cases h0 : n = 0
    · subst h0; simp [fromDec]
    · rw [if_neg h0, fromDec_append_digit, ih (n / 10) ?_, toNat_ofNat_digit _ (Nat.mod_lt n (by norm_num))]
      · omega
      · have : n / 10 < n := Nat.div_lt_self (Nat.pos_of_ne_zero h0) (by norm_num)
        omega

theorem fromDec_natDecStr (n : Nat) : fromDec (natDecStr n).data = n := by
  unfold natDecStr
  by_cases h0 : n = 0
  · subst h0; decide
  · rw [if_neg h0]
    exact fromDec_natDecAux n n le_rfl

theorem natDecStr_inj {m n : Nat} (h : natDecStr m = natDecStr n) : m = n := by
  have := congrArg (fun s => fromDec s.data) h
  simpa [fromDec_natDecStr] using this

/-! ### Per-ply key names: shape and injectivity -/

theorem plyKeyStr_data (ply : Nat) (sfx : String) :
    (plyKeyStr ply sfx).data =
      (if ply % 2 = 1 then "white" else "black").data ++
        ("_move".data ++ ((natDecStr ((ply + 1) / 2)).data ++ sfx.data)) := by
  unfold plyKeyStr
  by_cases h : ply % 2 = 1 <;> simp [h, String.data_append]

theorem take_of_append_eq {α} {a b c d : List α} (n : Nat) (h : a ++ b = c ++ d)
    (ha : n ≤ a.length) (hc : n ≤ c.length) : a.take n = c.take n := by
  rw [← List.take_append_of_le_length ha, ← List.take_append_of_le_length hc, h]

theorem sfx_eq_of_append_eq {s t : String} (hs : s ∈ plySuffixes) (ht : t ∈ plySuffixes)
    {A B : List Char} (h : A ++ s.data = B ++ t.data) : s = t := by
  have hrev : s.data.reverse ++ A.reverse = t.data.reverse ++ B.reverse := by
    simpa [List.reverse_append] using congrArg List.reverse h
  simp only [plySuffixes, List.mem_cons, List.not_mem_nil, or_false] at hs ht
  rcases hs with rfl | rfl | rfl | rfl <;> rcases ht with rfl | rfl | rfl | rfl <;>
    first
      | rfl
      | (exfalso
         have h5 := take_of_append_eq 5 hrev (by decide) (by decide)
         revert h5
         decide)

theorem plyKeyStr_inj {i j : Nat} {s t : String}
    (hs : s ∈ plySuffixes) (ht : t ∈ plySuffixes)
    (h : plyKeyStr i s = plyKeyStr j t) : i = j ∧ s = t := by
  have hd := congrArg String.data h
  rw [plyKeyStr_data, plyKeyStr_data] at hd
  by_cases hpi : i % 2 = 1 <;> by_cases hpj : j % 2 = 1
  · rw [if_pos hpi, if_pos hpj] at hd
    have h2 := List.append_cancel_left (List.append_cancel_left hd)
    have hst : s = t := sfx_eq_of_append_eq hs ht h2
    subst hst
    have h4 : natDecStr ((i + 1) / 2) = natDecStr ((j + 1) / 2) :=
      String.ext (List.append_cancel_right h2)
    have h5 := natDecStr_inj h4
    exact ⟨by omega, rfl⟩
  · rw [if_pos hpi, if_neg hpj] at hd
    have := take_of_append_eq 5 hd (by decide) (by decide)
    exact absurd this (by decide)
  · rw [if_neg hpi, if_pos hpj] at hd
    have := take_of_append_eq 5 hd (by decide) (by decide)
    exact absurd this (by decide)
  · rw [if_neg hpi, if_neg hpj] at hd
    have h2 := List.append_cancel_left (List.append_cancel_left hd)
    have hst : s = t := sfx_eq_of_append_eq hs ht h2
    subst hst
    have h4 : natDecStr ((i + 1) / 2) = natDecStr ((j + 1) / 2) :=
      String.ext (List.append_cancel_right h2)
    have h5 := natDecStr_inj h4
    exact ⟨by omega, rfl⟩

theorem plyPrefixed_plyKeyStr (ply : Nat) (sfx : String) :
    plyPrefixed (plyKeyStr ply sfx) = true := by
  unfold plyPrefixed
  rw [plyKeyStr_data]
  by_cases h : ply % 2 = 1
  · rw [if_pos h]
    have : "white".data ++ ("_move".data ++ ((natDecStr ((ply + 1) / 2)).data ++ sfx.data)) =
        "white_move".data ++ ((natDecStr ((ply + 1) / 2)).data ++ sfx.data) := by
      rw [← List.append_assoc]
      rfl
    rw [this]
    simp [List.isPrefixOf_iff_prefix, List.prefix_append]
  · rw [if_neg h]
    have : "black".data ++ ("_move".data ++ ((natDecStr ((ply + 1) / 2)).data ++ sfx.data)) =
        "black_move".data ++ ((natDecStr ((ply + 1) / 2)).data ++ sfx.data) := by
      rw [← List.append_assoc]
      rfl
    rw [this]
    simp [List.isPrefixOf_iff_prefix, List.prefix_append]

theorem ply_ne_plyKeyStr (ply : Nat) (sfx : String) : "Ply" ≠ plyKeyStr ply sfx := by
  intro h
  have hd := congrArg String.data h
  rw [plyKeyStr_data] at hd
  have hd' : "Ply".data ++ ([] : List Char) =
      (if ply % 2 = 1 then "white" else "black").data ++
        ("_move".data ++ ((natDecStr ((ply + 1) / 2)).data ++ sfx.data)) := by
    simpa using hd
  by_cases hp : ply % 2 = 1
  · rw [if_pos hp] at hd'
    have := take_of_append_eq 3 hd' (by decide) (by decide)
    exact absurd this (by decide)
  · rw [if_neg hp] at hd'
    have := take_of_append_eq 3 hd' (by decide) (by decide)
    exact absurd this (by decide)

/-! ### Keys and values produced by the per-ply pass -/

theorem mem_producedKeys {moves : List MoveNode} {p : Nat} {k : String}
    (h : k ∈ producedKeys moves p) : ∃ s ∈ plySuffixes, k = plyKeyStr p s := by
  unfold producedKeys at h
  cases hm : moves[p - 1]? with
  | none => rw [hm] at h; cases h
  | some node =>
    rw [hm] at h
    obtain ⟨uci, clock, eva⟩ := node
    cases eva with
    | none =>
      simp only [List.append_nil, List.mem_cons, List.not_mem_nil, or_false] at h
      rcases h with rfl | rfl
      · exact ⟨"_move", by simp [plySuffixes], rfl⟩
      · exact ⟨"_timespent", by simp [plySuffixes], rfl⟩
    | some e =>
      by_cases hmate : e.isMate = true
      · simp only [hmate, if_true, List.cons_append, List.nil_append, List.mem_cons,
          List.not_mem_nil, or_false] at h
        rcases h with rfl | rfl | rfl | rfl
        · exact ⟨"_move", by simp [plySuffixes], rfl⟩
        · exact ⟨"_timespent", by simp [plySuffixes], rfl⟩
        · exact ⟨"_evalaftermove", by simp [plySuffixes], rfl⟩
        · exact ⟨"_eval_is_mate", by simp [plySuffixes], rfl⟩
      · simp [hmate] at h
        rcases h with rfl | rfl | rfl
        · exact ⟨"_move", by simp [plySuffixes], rfl⟩
        · exact ⟨"_timespent", by simp [plySuffixes], rfl⟩
        · exact ⟨"_evalaftermove", by simp [plySuffixes], rfl⟩

theorem hasKey_plyFeature (moves : List MoveNode) (ply : Nat) (fs : Features) (k : String) :
    hasKey (plyFeature moves ply fs) k = true ↔
      k ∈ producedKeys moves ply ∨ hasKey fs k = true := by
  unfold plyFeature producedKeys
  cases hm : moves[ply - 1]? with
  | none => simp
  | some node =>
    obtain ⟨uci, clock, eva⟩ := node
    cases eva with
    | none =>
      simp only [hasKey_dictSet, List.append_nil, List.mem_cons, List.not_mem_nil, or_false]
      tauto
    | some e =>
      by_cases hmate : e.isMate = true
      · simp [hmate, hasKey_dictSet]
        tauto
      · simp [hmate, hasKey_dictSet]
        tauto

theorem hasKey_foldl_plyFeature (moves : List MoveNode) (ps : List Nat) (fs : Features)
    (k : String) :
    hasKey (ps.foldl (fun fs p => plyFeature moves p fs) fs) k = true ↔
      (∃ p ∈ ps, k ∈ producedKeys moves p) ∨ hasKey fs k = true := by
  induction ps generalizing fs with
  | nil => simp
  | cons p ps ih =>
    simp only [List.foldl_cons, ih, hasKey_plyFeature, List.mem_cons]
    constructor
    · rintro (⟨q, hq, hk⟩ | hk | hk)
      · exact Or.inl ⟨q, Or.inr hq, hk⟩
      · exact Or.inl ⟨p, Or.inl rfl, hk⟩
      · exact Or.inr hk
    · rintro (⟨q, rfl | hq, hk⟩ | hk)
      · exact Or.inr (Or.inl hk)
      · exact Or.inl ⟨q, hq, hk⟩
      · exact Or.inr (Or.inr hk)

theorem dictGet_plyFeature_not_produced (moves : List MoveNode) (ply : Nat) (fs : Features)
    (k : String) (hk : k ∉ producedKeys moves ply) :
    dictGet (plyFeature moves ply fs) k = dictGet fs k := by
  unfold plyFeature producedKeys at *
  cases hm : moves[ply - 1]? with
  | none => rfl
  | some node =>
    rw [hm] at hk
    obtain ⟨uci, clock, eva⟩ := node
    cases eva with
    | none =>
      simp only [List.append_nil, List.mem_cons, List.not_mem_nil, or_false, not_or] at hk
      dsimp only
      rw [dictGet_dictSet_ne _ _ _ _ hk.2, dictGet_dictSet_ne _ _ _ _ hk.1]
    | some e =>
      by_cases hmate : e.isMate = true
      · simp only [hmate, if_true, List.cons_append, List.nil_append, List.mem_cons,
          List.not_mem_nil, or_false, not_or] at hk
        dsimp only
        rw [if_pos hmate]
        rw [dictGet_dictSet_ne _ _ _ _ hk.2.2.2, dictGet_dictSet_ne _ _ _ _ hk.2.2.1,
          dictGet_dictSet_ne _ _ _ _ hk.2.1, dictGet_dictSet_ne _ _ _ _ hk.1]
      · simp [hmate, not_or] at hk
        dsimp only
        rw [if_neg hmate]
        rw [dictGet_dictSet_ne _ _ _ _ hk.2.2, dictGet_dictSet_ne _ _ _ _ hk.2.1,
          dictGet_dictSet_ne _ _ _ _ hk.1]

theorem dictGet_foldl_not_produced (moves : List MoveNode) (ps : List Nat) (fs : Features)
    (k : String) (hk : ∀ p ∈ ps, k ∉ producedKeys moves p) :
    dictGet (ps.foldl (fun fs p => plyFeature moves p fs) fs) k = dictGet fs k := by
  induction ps generalizing fs with
  | nil => rfl
  | cons p ps ih =>
    rw [List.foldl_cons, ih _ (fun q hq => hk q (List.mem_cons_of_mem p hq)),
      dictGet_plyFeature_not_produced _ _ _ _ (hk p (List.mem_cons_self p ps))]

theorem plyKeyStr_sfx_ne {ply : Nat} {s t : String} (hs : s ∈ plySuffixes)
    (ht : t ∈ plySuffixes) (hne : s ≠ t) : plyKeyStr ply s ≠ plyKeyStr ply t :=
  fun h => hne (plyKeyStr_inj hs ht h).2

theorem plyKey_not_produced_other {moves : List MoveNode} {p ply : Nat} {sfx : String}
    (hsfx : sfx ∈ plySuffixes) (hne : p ≠ ply) :
    plyKeyStr ply sfx ∉ producedKeys moves p := by
  intro h
  obtain ⟨s, hs, heq⟩ := mem_producedKeys h
  exact hne (plyKeyStr_inj hsfx hs heq).1.symm

theorem dictGet_plyFeature_timespent (moves : List MoveNode) (ply : Nat) (fs : Features)
    (node : MoveNode) (hm : moves[ply - 1]? = some node) :
    dictGet (plyFeature moves ply fs) (plyKeyStr ply "_timespent") =
      some (match node.clock with | some c => .int c | none => .null) := by
  unfold plyFeature
  rw [hm]
  obtain ⟨uci, clock, eva⟩ := node
  cases eva with
  | none =>
    dsimp only
    rw [dictGet_dictSet_self]
  | some e =>
    have hne1 : plyKeyStr ply "_timespent" ≠ plyKeyStr ply "_evalaftermove" :=
      plyKeyStr_sfx_ne (by simp [plySuffixes]) (by simp [plySuffixes]) (by decide)
    have hne2 : plyKeyStr ply "_timespent" ≠ plyKeyStr ply "_eval_is_mate" :=
      plyKeyStr_sfx_ne (by simp [plySuffixes]) (by simp [plySuffixes]) (by decide)
    by_cases hmate : e.isMate = true
    · dsimp only
      rw [if_pos hmate, dictGet_dictSet_ne _ _ _ _ hne2, dictGet_dictSet_ne _ _ _ _ hne1,
        dictGet_dictSet_self]
    · dsimp only
      rw [if_neg hmate, dictGet_dictSet_ne _ _ _ _ hne1, dictGet_dictSet_self]

theorem dictGet_plyFeature_mate (moves : List MoveNode) (ply : Nat) (fs : Features)
    (node : MoveNode) (e : EvalAnn) (hm : moves[ply - 1]? = some node)
    (he : node.evalAnn = some e) (hmate : e.isMate = true) :
    dictGet (plyFeature moves ply fs) (plyKeyStr ply "_eval_is_mate") = some (.int 1) := by
  unfold plyFeature
  rw [hm]
  obtain ⟨uci, clock, eva⟩ := node
  dsimp only at he
  subst he
  dsimp only
  rw [if_pos hmate, dictGet_dictSet_self]

theorem mateKey_not_produced_self {moves : List MoveNode} {ply : Nat} {node : MoveNode}
    (hm : moves[ply - 1]? = some node)
    (hno : ¬ ∃ e, node.evalAnn = some e ∧ e.isMate = true) :
    plyKeyStr ply "_eval_is_mate" ∉ producedKeys moves ply := by
  intro h
  unfold producedKeys at h
  rw [hm] at h
  obtain ⟨uci, clock, eva⟩ := node
  have hne1 : plyKeyStr ply "_eval_is_mate" ≠ plyKeyStr ply "_move" :=
    plyKeyStr_sfx_ne (by simp [plySuffixes]) (by simp [plySuffixes]) (by decide)
  have hne2 : plyKeyStr ply "_eval_is_mate" ≠ plyKeyStr ply "_timespent" :=
    plyKeyStr_sfx_ne (by simp [plySuffixes]) (by simp [plySuffixes]) (by decide)
  have hne3 : plyKeyStr ply "_eval_is_mate" ≠ plyKeyStr ply "_evalaftermove" :=
    plyKeyStr_sfx_ne (by simp [plySuffixes]) (by simp [plySuffixes]) (by decide)
  cases eva with
  | none =>
    simp only [List.append_nil, List.mem_cons, List.not_mem_nil, or_false] at h
    rcases h with h | h
    · exact hne1 h
    · exact hne2 h
  | some e =>
    by_cases hmate : e.isMate = true
    · exact hno ⟨e, rfl, hmate⟩
    · simp [hmate] at h
      rcases h with h | h | h
      · exact hne1 h
      · exact hne2 h
      · exact hne3 h

theorem plyIndices_eq_split {maxPly P i : Nat} (hi : i ∈ plyIndices maxPly P) :
    plyIndices maxPly P =
      List.range' 1 (i - 1) ++ i :: List.range' (i + 1) (min (maxPly + 1) P - 1 - i) := by
  unfold plyIndices at hi ⊢
  rw [List.mem_range'_1] at hi
  obtain ⟨h1, h2⟩ := hi
  have key : i :: List.range' (i + 1) (min (maxPly + 1) P - 1 - i) =
      List.range' i (min (maxPly + 1) P - 1 - i + 1) := by
    rw [List.range'_succ]
  rw [key]
  have h4 : 1 + (i - 1) = i := by omega
  calc List.range' 1 (min (maxPly + 1) P - 1)
      = List.range' 1 ((i - 1) + (min (maxPly + 1) P - 1 - i + 1)) := by
        congr 1
        omega
    _ = List.range' 1 (i - 1) ++ List.range' (1 + (i - 1)) (min (maxPly + 1) P - 1 - i + 1) := by
        rw [List.range'_append_1]
        congr 1
        omega
    _ = List.range' 1 (i - 1) ++ List.range' i (min (maxPly + 1) P - 1 - i + 1) := by
        rw [h4]

theorem mem_plyIndices {maxPly P i : Nat} :
    i ∈ plyIndices maxPly P ↔ 1 ≤ i ∧ i < 1 + (min (maxPly + 1) P - 1) := by
  unfold plyIndices
  exact List.mem_range'_1

theorem dictGet_plyPass_at (moves : List MoveNode) (maxPly : Nat) (fs : Features)
    {i : Nat} {sfx : String} (hsfx : sfx ∈ plySuffixes)
    (hi : i ∈ plyIndices maxPly moves.length) :
    dictGet (plyPass moves maxPly fs) (plyKeyStr i sfx) =
      dictGet (plyFeature moves i
        ((List.range' 1 (i - 1)).foldl (fun fs p => plyFeature moves p fs) fs))
        (plyKeyStr i sfx) := by
  unfold plyPass
  rw [plyIndices_eq_split hi, List.foldl_append, List.foldl_cons]
  apply dictGet_foldl_not_produced
  intro p hp
  rw [List.mem_range'_1] at hp
  exact plyKey_not_produced_other hsfx (by omega)

/-! ### Header pass lemmas -/

theorem headerPass_hasKey {ls : List String} {fs fs' : Features}
    (h : headerPass ls fs = some fs') (k : String) :
    hasKey fs' k = true ↔
      (∃ l ∈ ls, ∃ v, parseHeaderLine l = some (k, v)) ∨ hasKey fs k = true := by
  induction ls generalizing fs with
  | nil =>
    unfold headerPass at h
    cases h
    simp
  | cons l ls ih =>
    unfold headerPass at h
    cases hp : parseHeaderLine l with
    | none => rw [hp] at h; cases h
    | some kv =>
      rw [hp] at h
      obtain ⟨k0, v0⟩ := kv
      rw [ih h, hasKey_dictSet]
      constructor
      · rintro (⟨l', hl', v', hv'⟩ | rfl | hk)
        · exact Or.inl ⟨l', List.mem_cons_of_mem l hl', v', hv'⟩
        · exact Or.inl ⟨l, List.mem_cons_self l ls, v0, hp⟩
        · exact Or.inr hk
      · rintro (⟨l', hl', v', hv'⟩ | hk)
        · rcases List.mem_cons.mp hl' with rfl | hl'
          · rw [hp] at hv'
            cases hv'
            exact Or.inr (Or.inl rfl)
          · exact Or.inl ⟨l', hl', v', hv'⟩
        · exact Or.inr (Or.inr hk)

theorem headerPass_total {ls : List String} (h : ∀ l ∈ ls, (parseHeaderLine l).isSome) :
    ∀ fs, ∃ fs', headerPass ls fs = some fs' := by
  induction ls with
  | nil => exact fun fs => ⟨fs, rfl⟩
  | cons l ls ih =>
    intro fs
    obtain ⟨kv, hkv⟩ := Option.isSome_iff_exists.mp (h l (List.mem_cons_self l ls))
    obtain ⟨fs', hfs'⟩ := ih (fun l' hl' => h l' (List.mem_cons_of_mem l hl')) (dictSet fs kv.1 (.str kv.2))
    refine ⟨fs', ?_⟩
    unfold headerPass
    rw [hkv]
    exact hfs'

theorem parse_pgn_concat (hdrs : List String) (mt : String) (engine : Engine) (maxPly : Nat) :
    parse_pgn (hdrs ++ [mt]) engine maxPly =
      match headerPass hdrs [] with
      | none => none
      | some fs =>
        some (plyPass (engine mt) maxPly
          (dictSet fs "Ply" (.int (engine mt).length))) := by
  unfold parse_pgn
  rw [List.dropLast_concat, List.getLast?_concat]

theorem headerKeysSafe_spec {hdrs : List String} {l k v : String}
    (hsafe : headerKeysSafe hdrs = true) (hl : l ∈ hdrs)
    (hp : parseHeaderLine l = some (k, v)) : plyPrefixed k = false := by
  have h := List.all_eq_true.mp hsafe l hl
  rw [hp] at h
  simpa using h

theorem parse_pgn_some_elim {hdrs : List String} {mt : String} {engine : Engine}
    {maxPly : Nat} {fs : Features}
    (h : parse_pgn (hdrs ++ [mt]) engine maxPly = some fs) :
    ∃ hfs, headerPass hdrs [] = some hfs ∧
      fs = plyPass (engine mt) maxPly (dictSet hfs "Ply" (.int (engine mt).length)) := by
  rw [parse_pgn_concat] at h
  cases hh : headerPass hdrs [] with
  | none => rw [hh] at h; cases h
  | some hfs =>
    rw [hh] at h
    cases h
    exact ⟨hfs, rfl, rfl⟩

theorem keys_mem_produced_self {moves : List MoveNode} {i : Nat} {node : MoveNode}
    (hm : moves[i - 1]? = some node) :
    plyKeyStr i "_move" ∈ producedKeys moves i ∧
      plyKeyStr i "_timespent" ∈ producedKeys moves i := by
  unfold producedKeys
  rw [hm]
  obtain ⟨uci, clock, eva⟩ := node
  cases eva with
  | none => simp
  | some e => by_cases hmate : e.isMate = true <;> simp [hmate]

theorem mateKey_mem_produced_iff {moves : List MoveNode} {i : Nat} {node : MoveNode}
    (hm : moves[i - 1]? = some node) :
    plyKeyStr i "_eval_is_mate" ∈ producedKeys moves i ↔
      ∃ e, node.evalAnn = some e ∧ e.isMate = true := by
  constructor
  · intro h
    by_contra hno
    exact mateKey_not_produced_self hm hno h
  · rintro ⟨e, he, hmate⟩
    unfold producedKeys
    rw [hm]
    obtain ⟨uci, clock, eva⟩ := node
    dsimp only at he
    subst he
    simp [hmate]

theorem hasKey_parse_pgn_plyKey {hdrs : List String} {mt : String} {engine : Engine}
    {maxPly : Nat} {hfs : Features} (hh : headerPass hdrs [] = some hfs)
    (hsafe : headerKeysSafe hdrs = true) {i : Nat} {sfx : String}
    (hsfx : sfx ∈ plySuffixes) :
    hasKey (plyPass (engine mt) maxPly (dictSet hfs "Ply" (.int (engine mt).length)))
        (plyKeyStr i sfx) = true ↔
      i ∈ plyIndices maxPly (engine mt).length ∧
        plyKeyStr i sfx ∈ producedKeys (engine mt) i := by
  unfold plyPass
  rw [hasKey_foldl_plyFeature]
  constructor
  · rintro (⟨p, hp, hmem⟩ | hbase)
    · obtain ⟨s, hs, heq⟩ := mem_producedKeys hmem
      obtain ⟨rfl, rfl⟩ := plyKeyStr_inj hsfx hs heq
      exact ⟨hp, hmem⟩
    · exfalso
      rw [hasKey_dictSet] at hbase
      rcases hbase with hply | hhdr
      · exact ply_ne_plyKeyStr i sfx hply.symm
      · rw [headerPass_hasKey hh] at hhdr
        rcases hhdr with ⟨l, hl, v, hv⟩ | hempty
        · have := headerKeysSafe_spec hsafe hl hv
          rw [plyPrefixed_plyKeyStr] at this
          cases this
        · simp [hasKey] at hempty
  · rintro ⟨hp, hmem⟩
    exact Or.inl ⟨i, hp, hmem⟩

/-- **C1.** For a complete record whose game the engine parses with total ply
count `P` and a cap `max_ply = M`, the extractor's output has per-ply feature
keys for exactly the ply indices `i ∈ [1, min(M, P−1)]`: some per-ply key for
index `i` is present iff `i ≤ min M (P−1)`, and for each such `i` the
unconditional `_move` and `_timespent` keys are both present. -/
theorem per_ply_keys_exact_range (hdrs : List String) (mt : String) (engine : Engine)
    (maxPly : Nat) (fs : Features)
    (hsafe : headerKeysSafe hdrs = true)
    (hparse : parse_pgn (hdrs ++ [mt]) engine maxPly = some fs)
    (i : Nat) (hi : 1 ≤ i) :
    ((∃ sfx ∈ plySuffixes, hasKey fs (plyKeyStr i sfx) = true) ↔
        i ≤ min maxPly ((engine mt).length - 1)) ∧
      (i ≤ min maxPly ((engine mt).length - 1) →
        hasKey fs (plyKeyStr i "_move") = true ∧
          hasKey fs (plyKeyStr i "_timespent") = true) := by
  obtain ⟨hfs, hh, rfl⟩ := parse_pgn_some_elim hparse
  have hnode : i ≤ min maxPly ((engine mt).length - 1) →
      ∃ node, (engine mt)[i - 1]? = some node := by
    intro hle
    have hlt : i - 1 < (engine mt).length := by omega
    exact ⟨_, List.getElem?_eq_getElem hlt⟩
  constructor
  · constructor
    · rintro ⟨sfx, hsfx, hk⟩
      have hmem := ((hasKey_parse_pgn_plyKey hh hsafe hsfx).mp hk).1
      have := mem_plyIndices.mp hmem
      omega
    · intro hle
      obtain ⟨node, hnd⟩ := hnode hle
      refine ⟨"_move", by simp [plySuffixes], ?_⟩
      rw [hasKey_parse_pgn_plyKey hh hsafe (by simp [plySuffixes])]
      exact ⟨mem_plyIndices.mpr ⟨hi, by omega⟩, (keys_mem_produced_self hnd).1⟩
  · intro hle
    obtain ⟨node, hnd⟩ := hnode hle
    constructor
    · rw [hasKey_parse_pgn_plyKey hh hsafe (by simp [plySuffixes])]
      exact ⟨mem_plyIndices.mpr ⟨hi, by omega⟩, (keys_mem_produced_self hnd).1⟩
    · rw [hasKey_parse_pgn_plyKey hh hsafe (by simp [plySuffixes])]
      exact ⟨mem_plyIndices.mpr ⟨hi, by omega⟩, (keys_mem_produced_self hnd).2⟩

/-- **C1 witness.** A 5-ply game with cap 20: ply 4 has per-ply keys, ply 5
does not (`min(20, 5−1) = 4`). -/
theorem per_ply_keys_exact_range_witness :
    ∃ fs, parse_pgn (["[Event \"x\"]"] ++ ["1. e4 e5 2. Nf3 Nc6 3. Bb5"])
        engFive 20 = some fs ∧
      hasKey fs (plyKeyStr 4 "_move") = true ∧
      hasKey fs (plyKeyStr 5 "_move") = false := by
  refine ⟨_, rfl, ?_, by decide⟩
  exact ((per_ply_keys_exact_range ["[Event \"x\"]"] "1. e4 e5 2. Nf3 Nc6 3. Bb5"
    engFive 20 _ (by decide) rfl 4 (by decide)).2 (by decide)).1

/-- **C2.** The `{player}_move{N}_eval_is_mate` key is present iff the ply is
analyzed and its evaluation annotation denotes a forced mate, and whenever the
key is present its value is the truthy `1` — it is never stored with any other
value (in particular never an explicit false value). -/
theorem eval_is_mate_semantics (hdrs : List String) (mt : String) (engine : Engine)
    (maxPly : Nat) (fs : Features)
    (hsafe : headerKeysSafe hdrs = true)
    (hparse : parse_pgn (hdrs ++ [mt]) engine maxPly = some fs)
    (i : Nat) (hi : 1 ≤ i) :
    (hasKey fs (plyKeyStr i "_eval_is_mate") = true ↔
      (i ≤ min maxPly ((engine mt).length - 1) ∧
        ∃ node, (engine mt)[i - 1]? = some node ∧
          ∃ e, node.evalAnn = some e ∧ e.isMate = true)) ∧
    (∀ v, dictGet fs (plyKeyStr i "_eval_is_mate") = some v → v = .int 1) := by
  obtain ⟨hfs, hh, rfl⟩ := parse_pgn_some_elim hparse
  have hmsfx : "_eval_is_mate" ∈ plySuffixes := by simp [plySuffixes]
  constructor
  · rw [hasKey_parse_pgn_plyKey hh hsafe hmsfx]
    constructor
    · rintro ⟨hidx, hmem⟩
      have hrange := mem_plyIndices.mp hidx
      have hlt : i - 1 < (engine mt).length := by omega
      have hnd : (engine mt)[i - 1]? = some ((engine mt)[i - 1]) :=
        List.getElem?_eq_getElem hlt
      exact ⟨by omega, _, hnd, (mateKey_mem_produced_iff hnd).mp hmem⟩
    · rintro ⟨hle, node, hnd, hex⟩
      exact ⟨mem_plyIndices.mpr ⟨hi, by omega⟩, (mateKey_mem_produced_iff hnd).mpr hex⟩
  · intro v hv
    have hk := hasKey_of_dictGet _ _ _ hv
    rw [hasKey_parse_pgn_plyKey hh hsafe hmsfx] at hk
    obtain ⟨hidx, hmem⟩ := hk
    have hrange := mem_plyIndices.mp hidx
    have hlt : i - 1 < (engine mt).length := by omega
    have hnd : (engine mt)[i - 1]? = some ((engine mt)[i - 1]) :=
      List.getElem?_eq_getElem hlt
    obtain ⟨e, he, hm⟩ := (mateKey_mem_produced_iff hnd).mp hmem
    rw [dictGet_plyPass_at _ _ _ hmsfx hidx,
      dictGet_plyFeature_mate _ _ _ _ _ hnd he hm] at hv
    cases hv
    rfl

/-- **C2 witness.** A 3-ply game where ply 1's evaluation is a forced mate and
ply 2's is an ordinary score: the mate key is present (value 1) for ply 1 and
absent for ply 2. -/
theorem eval_is_mate_semantics_witness :
    ∃ fs, parse_pgn (["[Event \"x\"]"] ++ ["1. e4 e5 2. Nf3"]) engMate 20 = some fs ∧
      hasKey fs (plyKeyStr 1 "_eval_is_mate") = true ∧
      hasKey fs (plyKeyStr 2 "_eval_is_mate") = false ∧
      dictGet fs (plyKeyStr 1 "_eval_is_mate") = some (FVal.int 1) := by
  refine ⟨_, rfl, ?_, by decide, by decide⟩
  exact (eval_is_mate_semantics ["[Event \"x\"]"] "1. e4 e5 2. Nf3" engMate 20 _
    (by decide) rfl 1 (by decide)).1.mpr
    ⟨by decide, ⟨"e2e4", none, some ⟨none, true⟩⟩, rfl, ⟨none, true⟩, rfl, rfl⟩

/-- **C3 counterexample.** A record with no clock annotation on ply 1 still
yields the `white_move1_timespent` key — present with the null value, not
absent as the claim states. -/
theorem timespent_present_without_clock :
    ∃ fs, parse_pgn (["[Event \"x\"]"] ++ ["1. e4 e5"]) engNoClock 20 = some fs ∧
      hasKey fs "white_move1_timespent" = true ∧
      dictGet fs "white_move1_timespent" = some FVal.null := by
  exact ⟨_, rfl, by decide, by decide⟩

/-- **C3 (amended).** For every analyzed ply the `_timespent` key is always
present: with the clock reading when the source carries one, and with the null
value (Python `None`, stored by the unconditional `features[...] =
nextpos.clock()`) when it does not. -/
theorem timespent_key_always_present (hdrs : List String) (mt : String) (engine : Engine)
    (maxPly : Nat) (fs : Features)
    (hparse : parse_pgn (hdrs ++ [mt]) engine maxPly = some fs)
    (i : Nat) (hi : 1 ≤ i) (hle : i ≤ min maxPly ((engine mt).length - 1)) :
    ∃ node, (engine mt)[i - 1]? = some node ∧
      dictGet fs (plyKeyStr i "_timespent") =
        some (match node.clock with | some c => FVal.int c | none => FVal.null) := by
  obtain ⟨hfs, hh, rfl⟩ := parse_pgn_some_elim hparse
  have hts : "_timespent" ∈ plySuffixes := by simp [plySuffixes]
  have hidx : i ∈ plyIndices maxPly (engine mt).length :=
    mem_plyIndices.mpr ⟨hi, by omega⟩
  have hlt : i - 1 < (engine mt).length := by omega
  have hnd : (engine mt)[i - 1]? = some ((engine mt)[i - 1]) :=
    List.getElem?_eq_getElem hlt
  refine ⟨_, hnd, ?_⟩
  rw [dictGet_plyPass_at _ _ _ hts hidx, dictGet_plyFeature_timespent _ _ _ _ hnd]

/-- **C3 (amended) witness.** Ply 1 carries a clock annotation of 6000 and the
key holds that reading; the record parses successfully. -/
theorem timespent_key_always_present_witness :
    ∃ fs, parse_pgn (["[Event \"x\"]"] ++ ["1. e4 e5"]) engClock 20 = some fs ∧
      dictGet fs (plyKeyStr 1 "_timespent") = some (FVal.int 6000) := by
  refine ⟨_, rfl, ?_⟩
  obtain ⟨node, hnd, hget⟩ := timespent_key_always_present ["[Event \"x\"]"]
    "1. e4 e5" engClock 20 _ rfl 1 (by decide) (by decide)
  have hnode : node = ⟨"e2e4", some 6000, none⟩ := by
    have h0 : (engClock "1. e4 e5")[(1 : Nat) - 1]? =
        some ⟨"e2e4", some 6000, none⟩ := rfl
    rw [h0] at hnd
    exact (Option.some.inj hnd).symm
  subst hnode
  exact hget

theorem lastHeaderVal_cons (l : String) (ls : List String) (k : String) :
    lastHeaderVal (l :: ls) k =
      match lastHeaderVal ls k with
      | some v => some v
      | none =>
        match parseHeaderLine l with
        | some (k0, v0) => if k0 = k then some v0 else none
        | none => none := rfl

theorem headerPass_lastWins {ls : List String} {fs fs' : Features}
    (h : headerPass ls fs = some fs') (k : String) :
    dictGet fs' k =
      match lastHeaderVal ls k with
      | some v => some (.str v)
      | none => dictGet fs k := by
  induction ls generalizing fs with
  | nil =>
    unfold headerPass at h
    cases h
    rfl
  | cons l ls ih =>
    unfold headerPass at h
    cases hp : parseHeaderLine l with
    | none => rw [hp] at h; cases h
    | some kv =>
      rw [hp] at h
      obtain ⟨k0, v0⟩ := kv
      rw [ih h, lastHeaderVal_cons]
      cases hl : lastHeaderVal ls k with
      | some v => rfl
      | none =>
        rw [hp]
        dsimp only
        by_cases hk : k0 = k
        · subst hk
          rw [show (if k0 = k0 then some v0 else none) = some v0 from if_pos rfl]
          dsimp only
          rw [dictGet_dictSet_self]
        · rw [show (if k0 = k then some v0 else none) = none from if_neg hk]
          dsimp only
          rw [dictGet_dictSet_ne _ _ _ _ (fun hc => hk hc.symm)]

/-- **C4 counterexample.** The header line `[Event "a  b"]` (two spaces inside
the quoted value) is stored as `"a b"`: the split-and-rejoin collapses the
internal whitespace run, so the stored value is not character-for-character
equal to the quote-stripped original `"a  b"`. -/
theorem header_value_not_verbatim :
    headerPass ["[Event \"a  b\"]"] [] = some [("Event", FVal.str "a b")] ∧
      ("a b" : String) ≠ "a  b" := by
  exact ⟨rfl, by decide⟩

/-- **C4 (amended).** For every header line, the stored key is the first
whitespace-delimited token of the bracket-stripped line and the stored value
is the remaining tokens rejoined with single spaces with the first and last
characters removed (which equals the quote-stripped original only when the
value's internal whitespace consists of single spaces); when several header
lines share a key, the last occurrence's value wins. -/
theorem header_tokens_and_last_wins (hdrs : List String) (fs' : Features)
    (h : headerPass hdrs [] = some fs') :
    (∀ l ∈ hdrs, ∀ k v, parseHeaderLine l = some (k, v) →
        ∃ rest, pySplit (pySlice1 l) = k :: rest ∧ v = pySlice1 (joinSp rest)) ∧
      ∀ k, dictGet fs' k = (lastHeaderVal hdrs k).map FVal.str := by
  constructor
  · intro l _ k v hp
    unfold parseHeaderLine at hp
    cases hs : pySplit (pySlice1 l) with
    | nil => rw [hs] at hp; cases hp
    | cons key rest =>
      rw [hs] at hp
      cases hp
      exact ⟨rest, rfl, rfl⟩
  · intro k
    rw [headerPass_lastWins h k]
    cases lastHeaderVal hdrs k <;> rfl

/-- **C4 (amended) witness.** Two header lines with the same key `Event`: the
second one's computed value is stored. -/
theorem header_tokens_and_last_wins_witness :
    ∃ fs, headerPass ["[Event \"x\"]", "[Event \"y z\"]"] [] = some fs ∧
      dictGet fs "Event" =
        (lastHeaderVal ["[Event \"x\"]", "[Event \"y z\"]"] "Event").map FVal.str ∧
      dictGet fs "Event" = some (FVal.str "y z") := by
  refine ⟨_, rfl, ?_, by decide⟩
  exact (header_tokens_and_last_wins ["[Event \"x\"]", "[Event \"y z\"]"] _ rfl).2 "Event"

/-- **C10.** `parse_pgn` is not total on complete records: on the record whose
header line is the single character `*`, `line[1:-1].split()` is empty, so
`feature[0]` raises an uncaught `IndexError` (modelled here as the `none`
result); no feature mapping and no tagged failure value is produced. -/
theorem parse_pgn_star_header_index_error :
    parseHeaderLine "*" = none ∧
      parse_pgn ["*", "1. e4"] (fun _ => []) 20 = none := by
  exact ⟨rfl, rfl⟩

/-! ### Loop lemmas: the leading-line skip -/

theorem stepLine_skip (engine : Engine) (mp bs : Nat) (st : RunState) (l : String)
    (h : st.line_num < 50000000) :
    stepLine engine mp bs st l = some { st with line_num := st.line_num + 1 } := by
  unfold stepLine
  rw [if_pos h]

theorem runLines_skip (engine : Engine) (mp bs : Nat) :
    ∀ (lines : List String) (st : RunState),
      st.line_num + lines.length ≤ 50000000 →
      runLines engine mp bs st lines =
        some { st with line_num := st.line_num + lines.length } := by
  intro lines
  induction lines with
  | nil =>
    intro st h
    show some st = some { st with line_num := st.line_num + 0 }
    rw [Nat.add_zero]
  | cons l ls ih =>
    intro st h
    simp only [List.length_cons] at h
    unfold runLines
    rw [List.foldlM_cons, stepLine_skip _ _ _ _ _ (by omega)]
    show runLines engine mp bs { st with line_num := st.line_num + 1 } ls = _
    rw [ih { st with line_num := st.line_num + 1 } (by simp; omega)]
    have harith : st.line_num + 1 + ls.length = st.line_num + (ls.length + 1) := by omega
    simp only [harith, List.length_cons]

/-- **C9.** The leading-line skip is the hard-coded constant 50,000,000: on
any stream of at most that many lines every line is consumed by the skip
branch (the loop state is the initial one except for the line counter, so no
line is classified or assembled), and the run emits exactly one artifact with
ordinal 1 and zero rows and a schema manifest with zero names. -/
theorem skip_constant_swallows_stream (engine : Engine) (mp bs : Nat)
    (lines : List String) (h : lines.length ≤ 50000000) :
    runLines engine mp bs initState lines =
        some { initState with line_num := lines.length } ∧
      run engine mp bs lines =
        some { exports := [(1, [])], schemaSet := ∅,
               manifest := schemaRender ∅, totalReported := 0 } := by
  have hrl := runLines_skip engine mp bs lines initState (by simpa [initState] using h)
  have hz : initState.line_num + lines.length = lines.length := by
    simp [initState]
  rw [hz] at hrl
  refine ⟨hrl, ?_⟩
  unfold run
  rw [hrl]
  have hcols : dfColumns ([] : List Features) = ∅ := rfl
  show some (finalize bs _) = _
  unfold finalize
  simp [initState, hcols]

/-- **C9 witness.** A concrete 2-line stream is entirely swallowed by the
skip: one empty artifact with ordinal 1 and an empty schema. -/
theorem skip_constant_swallows_stream_witness :
    run engNoClock 20 2 ["[Event \"x\"]", "1. e4"] =
      some { exports := [(1, [])], schemaSet := ∅, manifest := schemaRender ∅,
             totalReported := 0 } :=
  (skip_constant_swallows_stream engNoClock 20 2 _ (by decide)).2

/-! ### Loop lemmas: unterminated trailing records -/

theorem stepLine_nonterminator (engine : Engine) (mp bs : Nat) (st : RunState)
    (l : String) (hl : nonTerminatorLine l = true) :
    ∃ cg ln, stepLine engine mp bs st l =
      some { st with currgame := cg, line_num := ln } := by
  unfold stepLine
  by_cases hskip : st.line_num < 50000000
  · rw [if_pos hskip]
    exact ⟨st.currgame, st.line_num + 1, rfl⟩
  · rw [if_neg hskip]
    unfold nonTerminatorLine at hl
    cases hd : (pyStrip l).data with
    | nil =>
      refine ⟨st.currgame, st.line_num, ?_⟩
      dsimp only
      rw [hd]
    | cons c cs =>
      rw [hd] at hl
      have hc : c.isDigit = false := by simpa using hl
      refine ⟨st.currgame ++ [pyStrip l], st.line_num, ?_⟩
      dsimp only
      rw [hd]
      dsimp only
      rw [hc]
      rfl

theorem runLines_nonterminators (engine : Engine) (mp bs : Nat) :
    ∀ (extra : List String) (st : RunState),
      (∀ l ∈ extra, nonTerminatorLine l = true) →
      ∃ cg ln, runLines engine mp bs st extra =
        some { st with currgame := cg, line_num := ln } := by
  intro extra
  induction extra with
  | nil =>
    intro st _
    exact ⟨st.currgame, st.line_num, rfl⟩
  | cons l ls ih =>
    intro st h
    obtain ⟨cg, ln, hstep⟩ := stepLine_nonterminator engine mp bs st l
      (h l (List.mem_cons_self l ls))
    obtain ⟨cg', ln', hrest⟩ := ih { st with currgame := cg, line_num := ln }
      (fun l' hl' => h l' (List.mem_cons_of_mem _ hl'))
    refine ⟨cg', ln', ?_⟩
    unfold runLines
    rw [List.foldlM_cons, hstep]
    show runLines engine mp bs { st with currgame := cg, line_num := ln } ls = _
    rw [hrest]

/-- **C7.** A stream that ends with a non-empty unterminated record buffer
(trailing non-blank header-like lines with no movetext terminator) silently
drops the buffered lines: appending any such lines to any input changes none
of the emitted artifacts, none of the schema manifest, and raises no error —
the run's observable output is identical. -/
theorem trailing_unterminated_dropped (engine : Engine) (mp bs : Nat)
    (lines extra : List String)
    (hextra : ∀ l ∈ extra, nonTerminatorLine l = true) :
    run engine mp bs (lines ++ extra) = run engine mp bs lines := by
  unfold run runLines
  rw [List.foldlM_append]
  cases hls : List.foldlM (stepLine engine mp bs) initState lines with
  | none => rfl
  | some st =>
    obtain ⟨cg, ln, hrest⟩ := runLines_nonterminators engine mp bs extra st hextra
    unfold runLines at hrest
    show (List.foldlM (stepLine engine mp bs) st extra).map (finalize bs) = _
    rw [hrest]
    rfl

/-- **C7 witness.** One record followed by a dangling header line: same
output as the record alone. -/
theorem trailing_unterminated_dropped_witness :
    run engNoClock 20 2 (["1. e4"] ++ ["[White \"a\"]"]) =
      run engNoClock 20 2 ["1. e4"] :=
  trailing_unterminated_dropped engNoClock 20 2 ["1. e4"] ["[White \"a\"]"] (by decide)

/-! ### Loop lemmas: batch accounting invariant -/

theorem goodState_init (bs : Nat) : goodState bs initState :=
  ⟨rfl, by simp [initState], rfl, fun h => by simpa [initState] using h⟩

theorem goodState_step (engine : Engine) (mp bs : Nat) (st st' : RunState) (l : String)
    (h : stepLine engine mp bs st l = some st') (hg : goodState bs st) :
    goodState bs st' := by
  unfold stepLine at h
  by_cases hskip : st.line_num < 50000000
  · rw [if_pos hskip] at h
    cases h
    exact hg
  · rw [if_neg hskip] at h
    dsimp only at h
    cases hd : (pyStrip l).data with
    | nil =>
      rw [hd] at h
      dsimp only at h
      cases h
      exact hg
    | cons c cs =>
      rw [hd] at h
      dsimp only at h
      by_cases hc : c.isDigit = true
      · rw [if_pos hc] at h
        cases hp : parse_pgn (st.currgame ++ [pyStrip l]) engine mp with
        | none => rw [hp] at h; cases h
        | some feats =>
          rw [hp] at h
          dsimp only at h
          obtain ⟨hord, hfull, hbn, hlt⟩ := hg
          by_cases hlen : (st.game_batch ++ [feats]).length = bs
          · rw [if_pos hlen] at h
            cases h
            refine ⟨?_, ?_, ?_, ?_⟩
            · show (st.exports ++ [(st.batchnum, st.game_batch ++ [feats])]).map Prod.fst =
                List.range' 1 (st.exports ++ [(st.batchnum, st.game_batch ++ [feats])]).length
              rw [List.map_append, hord, List.length_append]
              have : (st.exports.length + [(st.batchnum, st.game_batch ++ [feats])].length) =
                  st.exports.length + 1 := by simp
              rw [this, List.range'_concat]
              simp [hbn]
              omega
            · intro e he
              rcases List.mem_append.mp he with he | he
              · exact hfull e he
              · simp only [List.mem_singleton] at he
                subst he
                exact hlen
            · show st.batchnum + 1 =
                (st.exports ++ [(st.batchnum, st.game_batch ++ [feats])]).length + 1
              simp [hbn]
            · intro hbs
              simpa using hbs
          · rw [if_neg hlen] at h
            cases h
            refine ⟨hord, hfull, hbn, ?_⟩
            intro hbs
            have h1 := hlt hbs
            have h2 : (st.game_batch ++ [feats]).length = st.game_batch.length + 1 := by simp
            show (st.game_batch ++ [feats]).length < bs
            omega
      · rw [if_neg hc] at h
        cases h
        exact hg

theorem goodState_runLines (engine : Engine) (mp bs : Nat) :
    ∀ (lines : List String) (st st' : RunState),
      runLines engine mp bs st lines = some st' → goodState bs st → goodState bs st' := by
  intro lines
  induction lines with
  | nil =>
    intro st st' h hg
    cases h
    exact hg
  | cons l ls ih =>
    intro st st' h hg
    unfold runLines at h
    rw [List.foldlM_cons] at h
    cases hstep : stepLine engine mp bs st l with
    | none => rw [hstep] at h; cases h
    | some st1 =>
      rw [hstep] at h
      exact ih st1 st' h (goodState_step engine mp bs st st1 l hstep hg)

theorem sum_map_const {α : Type} (l : List α) (f : α → Nat) (c : Nat)
    (h : ∀ x ∈ l, f x = c) : (l.map f).sum = l.length * c := by
  induction l with
  | nil => simp
  | cons x xs ih =>
    simp only [List.map_cons, List.sum_cons, List.length_cons,
      ih (fun y hy => h y (List.mem_cons_of_mem x hy)), h x (List.mem_cons_self x xs)]
    ring

/-- **C6.** At stream end, the epilogue performs exactly one additional
export, even of an empty batch: every successful run's artifact list ends
with the final batch (ordinals consecutive from 1, so the list is never
empty), all earlier artifacts are exactly full, and the reported row total
`(final_ordinal − 1) × capacity + size_of_last_batch` equals the true total
row count over all emitted artifacts. -/
theorem finalize_always_emits_total (engine : Engine) (mp bs : Nat)
    (lines : List String) (out : RunOutput) (hbs : 0 < bs)
    (hrun : run engine mp bs lines = some out) :
    ∃ k last,
      out.exports.map Prod.fst = List.range' 1 k ∧ 1 ≤ k ∧
      out.exports.getLast? = some (k, last) ∧ last.length < bs ∧
      (∀ e ∈ out.exports.dropLast, e.2.length = bs) ∧
      out.totalReported = (k - 1) * bs + last.length ∧
      out.totalReported = (out.exports.map (fun e => e.2.length)).sum := by
  unfold run at hrun
  cases hls : runLines engine mp bs initState lines with
  | none => rw [hls] at hrun; cases hrun
  | some st =>
    rw [hls] at hrun
    cases hrun
    obtain ⟨hord, hfull, hbn, hlt⟩ :=
      goodState_runLines engine mp bs lines initState st hls (goodState_init bs)
    refine ⟨st.batchnum, st.game_batch, ?_, by omega, ?_, hlt hbs, ?_, ?_, ?_⟩
    · show (st.exports ++ [(st.batchnum, st.game_batch)]).map Prod.fst = _
      rw [List.map_append, hord, List.map_singleton, hbn, List.range'_concat]
      simp
      omega
    · exact List.getLast?_concat _
    · intro e he
      rw [show (finalize bs st).exports.dropLast = st.exports from List.dropLast_concat] at he
      exact hfull e he
    · rfl
    · show (st.batchnum - 1) * bs + st.game_batch.length =
        ((st.exports ++ [(st.batchnum, st.game_batch)]).map (fun e => e.2.length)).sum
      rw [List.map_append, List.sum_append, sum_map_const _ _ bs hfull]
      simp [hbn]

/-- **C6 witness.** A skipped-through stream with capacity 2: one empty final
artifact, reported total 0 = actual total. -/
theorem finalize_always_emits_total_witness :
    ∃ out, run engNoClock 20 2 ["abc"] = some out ∧
      ∃ k last, out.exports.map Prod.fst = List.range' 1 k ∧ 1 ≤ k ∧
        out.exports.getLast? = some (k, last) ∧ last.length < 2 ∧
        (∀ e ∈ out.exports.dropLast, e.2.length = 2) ∧
        out.totalReported = (k - 1) * 2 + last.length ∧
        out.totalReported = (out.exports.map (fun e => e.2.length)).sum := by
  refine ⟨_, rfl, ?_⟩
  exact finalize_always_emits_total engNoClock 20 2 ["abc"] _ (by decide) rfl

/-! ### Loop lemmas: processing one well-formed record -/

theorem runLines_append (engine : Engine) (mp bs : Nat) (st : RunState)
    (l1 l2 : List String) :
    runLines engine mp bs st (l1 ++ l2) =
      (runLines engine mp bs st l1).bind (fun st' => runLines engine mp bs st' l2) := by
  unfold runLines
  rw [List.foldlM_append]
  rfl

theorem runLines_headers (engine : Engine) (mp bs : Nat) :
    ∀ (hdrs : List String) (st : RunState),
      50000000 ≤ st.line_num →
      hdrs.all goodHeaderLine = true →
      runLines engine mp bs st hdrs =
        some { st with currgame := st.currgame ++ hdrs.map pyStrip } := by
  intro hdrs
  induction hdrs with
  | nil =>
    intro st _ _
    show some st = _
    rw [List.map_nil, List.append_nil]
  | cons l ls ih =>
    intro st hskip hall
    simp only [List.all_cons, Bool.and_eq_true] at hall
    obtain ⟨hl, hls⟩ := hall
    have hstep : stepLine engine mp bs st l =
        some { st with currgame := st.currgame ++ [pyStrip l] } := by
      unfold stepLine
      rw [if_neg (by omega)]
      dsimp only
      unfold goodHeaderLine at hl
      cases hd : (pyStrip l).data with
      | nil => rw [hd] at hl; simp at hl
      | cons c cs =>
        rw [hd] at hl
        simp only [Bool.and_eq_true, Bool.not_eq_true'] at hl
        dsimp only
        rw [hl.1]
        rfl
    unfold runLines
    rw [List.foldlM_cons, hstep]
    show runLines engine mp bs { st with currgame := st.currgame ++ [pyStrip l] } ls = _
    rw [ih { st with currgame := st.currgame ++ [pyStrip l] } hskip hls]
    simp only [List.map_cons]
    rw [List.append_assoc]
    rfl

theorem stepLine_terminator (engine : Engine) (mp bs : Nat) (st : RunState)
    (mt : String) (feats : Features)
    (hskip : 50000000 ≤ st.line_num)
    (hmt : goodMovetext mt = true)
    (hparse : parse_pgn (st.currgame ++ [pyStrip mt]) engine mp = some feats) :
    stepLine engine mp bs st mt =
      some (if (st.game_batch ++ [feats]).length = bs then
        { game_batch := [], currgame := [], batchnum := st.batchnum + 1,
          schema_columns := st.schema_columns ∪ dfColumns (st.game_batch ++ [feats]),
          line_num := st.line_num,
          exports := st.exports ++ [(st.batchnum, st.game_batch ++ [feats])] }
      else { st with game_batch := st.game_batch ++ [feats], currgame := [] }) := by
  unfold stepLine
  rw [if_neg (by omega)]
  dsimp only
  unfold goodMovetext at hmt
  cases hd : (pyStrip mt).data with
  | nil => rw [hd] at hmt; simp at hmt
  | cons c cs =>
    rw [hd] at hmt
    dsimp only at hmt
    dsimp only
    rw [if_pos hmt, hparse]
    dsimp only
    by_cases hlen : (st.game_batch ++ [feats]).length = bs
    · rw [if_pos hlen, if_pos hlen]
    · rw [if_neg hlen, if_neg hlen]

theorem runLines_record (engine : Engine) (mp bs : Nat) (st : RunState)
    (hdrs : List String) (mt : String) (feats : Features)
    (hskip : 50000000 ≤ st.line_num)
    (hcg : st.currgame = [])
    (hgood : goodRecord hdrs mt = true)
    (hparse : parse_pgn (hdrs.map pyStrip ++ [pyStrip mt]) engine mp = some feats) :
    runLines engine mp bs st (hdrs ++ [mt]) =
      some (if (st.game_batch ++ [feats]).length = bs then
        { game_batch := [], currgame := [], batchnum := st.batchnum + 1,
          schema_columns := st.schema_columns ∪ dfColumns (st.game_batch ++ [feats]),
          line_num := st.line_num,
          exports := st.exports ++ [(st.batchnum, st.game_batch ++ [feats])] }
      else { st with game_batch := st.game_batch ++ [feats], currgame := [] }) := by
  unfold goodRecord at hgood
  simp only [Bool.and_eq_true] at hgood
  obtain ⟨hh, hmt⟩ := hgood
  rw [runLines_append, runLines_headers engine mp bs hdrs st hskip hh]
  show runLines engine mp bs { st with currgame := st.currgame ++ hdrs.map pyStrip } [mt] = _
  unfold runLines
  rw [List.foldlM_cons]
  have hp' : parse_pgn
      (({ st with currgame := st.currgame ++ hdrs.map pyStrip } : RunState).currgame ++
        [pyStrip mt]) engine mp = some feats := by
    show parse_pgn ((st.currgame ++ hdrs.map pyStrip) ++ [pyStrip mt]) engine mp = some feats
    rw [hcg, List.nil_append]
    exact hparse
  rw [stepLine_terminator engine mp bs
    { st with currgame := st.currgame ++ hdrs.map pyStrip } mt feats hskip hmt hp']
  rfl

/-- **C5.** Five well-formed records reaching the loop (after the 50,000,000
skipped leading lines) with `batch_size = 2` produce exactly three artifacts,
with ordinals 1, 2, 3 and row counts 2, 2, 1 in order; the schema manifest is
the union of the column sets of the three artifacts, and the reported total
is 5. -/
theorem five_records_three_batches (engine : Engine) (mp : Nat)
    (pre : List String) (hpre : pre.length = 50000000)
    (h1 h2 h3 h4 h5 : List String) (m1 m2 m3 m4 m5 : String)
    (f1 f2 f3 f4 f5 : Features)
    (hg1 : goodRecord h1 m1 = true) (hg2 : goodRecord h2 m2 = true)
    (hg3 : goodRecord h3 m3 = true) (hg4 : goodRecord h4 m4 = true)
    (hg5 : goodRecord h5 m5 = true)
    (hp1 : parse_pgn (h1.map pyStrip ++ [pyStrip m1]) engine mp = some f1)
    (hp2 : parse_pgn (h2.map pyStrip ++ [pyStrip m2]) engine mp = some f2)
    (hp3 : parse_pgn (h3.map pyStrip ++ [pyStrip m3]) engine mp = some f3)
    (hp4 : parse_pgn (h4.map pyStrip ++ [pyStrip m4]) engine mp = some f4)
    (hp5 : parse_pgn (h5.map pyStrip ++ [pyStrip m5]) engine mp = some f5) :
    run engine mp 2 (pre ++ ((h1 ++ [m1]) ++ ((h2 ++ [m2]) ++ ((h3 ++ [m3]) ++
        ((h4 ++ [m4]) ++ (h5 ++ [m5])))))) =
      some { exports := [(1, [f1, f2]), (2, [f3, f4]), (3, [f5])],
             schemaSet := dfColumns [f1, f2] ∪ dfColumns [f3, f4] ∪ dfColumns [f5],
             manifest := schemaRender
               (dfColumns [f1, f2] ∪ dfColumns [f3, f4] ∪ dfColumns [f5]),
             totalReported := 5 } := by
  have hskip0 : runLines engine mp 2 initState pre =
      some { game_batch := [], currgame := [], batchnum := 1, schema_columns := ∅,
             line_num := 50000000, exports := [] } := by
    rw [runLines_skip engine mp 2 pre initState (by simp [initState, hpre])]
    simp [initState, hpre]
  have e1 : runLines engine mp 2
      { game_batch := [], currgame := [], batchnum := 1, schema_columns := ∅,
        line_num := 50000000, exports := [] } (h1 ++ [m1]) =
      some { game_batch := [f1], currgame := [], batchnum := 1, schema_columns := ∅,
             line_num := 50000000, exports := [] } := by
    rw [runLines_record engine mp 2 _ h1 m1 f1 le_rfl rfl hg1 hp1,
      if_neg (by simp)]
    rfl
  have e2 : runLines engine mp 2
      { game_batch := [f1], currgame := [], batchnum := 1, schema_columns := ∅,
        line_num := 50000000, exports := [] } (h2 ++ [m2]) =
      some { game_batch := [], currgame := [], batchnum := 2,
             schema_columns := dfColumns [f1, f2],
             line_num := 50000000, exports := [(1, [f1, f2])] } := by
    rw [runLines_record engine mp 2 _ h2 m2 f2 le_rfl rfl hg2 hp2,
      if_pos (by simp)]
    rw [show ((∅ : Finset String) ∪ dfColumns ([f1] ++ [f2])) = dfColumns [f1, f2]
      from Finset.empty_union _]
    rfl
  have e3 : runLines engine mp 2
      { game_batch := [], currgame := [], batchnum := 2,
        schema_columns := dfColumns [f1, f2],
        line_num := 50000000, exports := [(1, [f1, f2])] } (h3 ++ [m3]) =
      some { game_batch := [f3], currgame := [], batchnum := 2,
             schema_columns := dfColumns [f1, f2],
             line_num := 50000000, exports := [(1, [f1, f2])] } := by
    rw [runLines_record engine mp 2 _ h3 m3 f3 le_rfl rfl hg3 hp3,
      if_neg (by simp)]
    rfl
  have e4 : runLines engine mp 2
      { game_batch := [f3], currgame := [], batchnum := 2,
        schema_columns := dfColumns [f1, f2],
        line_num := 50000000, exports := [(1, [f1, f2])] } (h4 ++ [m4]) =
      some { game_batch := [], currgame := [], batchnum := 3,
             schema_columns := dfColumns [f1, f2] ∪ dfColumns [f3, f4],
             line_num := 50000000, exports := [(1, [f1, f2]), (2, [f3, f4])] } := by
    rw [runLines_record engine mp 2 _ h4 m4 f4 le_rfl rfl hg4 hp4,
      if_pos (by simp)]
    rfl
  have e5 : runLines engine mp 2
      { game_batch := [], currgame := [], batchnum := 3,
        schema_columns := dfColumns [f1, f2] ∪ dfColumns [f3, f4],
        line_num := 50000000, exports := [(1, [f1, f2]), (2, [f3, f4])] } (h5 ++ [m5]) =
      some { game_batch := [f5], currgame := [], batchnum := 3,
             schema_columns := dfColumns [f1, f2] ∪ dfColumns [f3, f4],
             line_num := 50000000, exports := [(1, [f1, f2]), (2, [f3, f4])] } := by
    rw [runLines_record engine mp 2 _ h5 m5 f5 le_rfl rfl hg5 hp5,
      if_neg (by simp)]
    rfl
  unfold run
  rw [runLines_append, hskip0]
  show (runLines engine mp 2 _ ((h1 ++ [m1]) ++ _)).map (finalize 2) = _
  rw [runLines_append, e1]
  show (runLines engine mp 2 _ ((h2 ++ [m2]) ++ _)).map (finalize 2) = _
  rw [runLines_append, e2]
  show (runLines engine mp 2 _ ((h3 ++ [m3]) ++ _)).map (finalize 2) = _
  rw [runLines_append, e3]
  show (runLines engine mp 2 _ ((h4 ++ [m4]) ++ _)).map (finalize 2) = _
  rw [runLines_append, e4]
  show (runLines engine mp 2 _ (h5 ++ [m5])).map (finalize 2) = _
  rw [e5]
  rfl

/-- **C5 witness.** Five identical one-header records after a 50,000,000-line
blank prefix, capacity 2: artifacts of sizes 2, 2, 1 with ordinals 1, 2, 3. -/
theorem five_records_three_batches_witness :
    ∃ f, parse_pgn (["[Event \"x\"]"].map pyStrip ++ [pyStrip "1. e4"])
        engNoClock 20 = some f ∧
      run engNoClock 20 2 (List.replicate 50000000 "" ++
          ((["[Event \"x\"]"] ++ ["1. e4"]) ++ ((["[Event \"x\"]"] ++ ["1. e4"]) ++
            ((["[Event \"x\"]"] ++ ["1. e4"]) ++ ((["[Event \"x\"]"] ++ ["1. e4"]) ++
              (["[Event \"x\"]"] ++ ["1. e4"])))))) =
        some { exports := [(1, [f, f]), (2, [f, f]), (3, [f])],
               schemaSet := dfColumns [f, f] ∪ dfColumns [f, f] ∪ dfColumns [f],
               manifest := schemaRender
                 (dfColumns [f, f] ∪ dfColumns [f, f] ∪ dfColumns [f]),
               totalReported := 5 } := by
  refine ⟨_, rfl, ?_⟩
  exact five_records_three_batches engNoClock 20 (List.replicate 50000000 "")
    (List.length_replicate ..) ["[Event \"x\"]"] ["[Event \"x\"]"] ["[Event \"x\"]"] ["[Event \"x\"]"]
    ["[Event \"x\"]"] "1. e4" "1. e4" "1. e4" "1. e4" "1. e4" _ _ _ _ _
    (by decide) (by decide) (by decide) (by decide) (by decide)
    rfl rfl rfl rfl rfl

/-- **C8.** The run is deterministic: equal input streams and configurations
give equal outputs (all artifacts and the manifest, byte-identically in the
model); every successful run's manifest is the rendering of its schema set;
identical schema sets render to identical manifests; and the rendered name
list is lexicographically sorted and contains exactly the set's names. -/
theorem run_deterministic_sorted_manifest :
    (∀ (engine : Engine) (mp bs : Nat) (l1 l2 : List String), l1 = l2 →
        run engine mp bs l1 = run engine mp bs l2) ∧
      (∀ (engine : Engine) (mp bs : Nat) (lines : List String) (out : RunOutput),
        run engine mp bs lines = some out →
          out.manifest = schemaRender out.schemaSet) ∧
      (∀ s1 s2 : Finset String, s1 = s2 → schemaRender s1 = schemaRender s2) ∧
      (∀ cols : Finset String,
        List.Sorted (· ≤ ·) (cols.sort (· ≤ ·)) ∧
          (cols.sort (· ≤ ·)).toFinset = cols) := by
  refine ⟨?_, ?_, ?_, ?_⟩
  · intro engine mp bs l1 l2 h
    rw [h]
  · intro engine mp bs lines out h
    unfold run at h
    cases hls : runLines engine mp bs initState lines with
    | none => rw [hls] at h; cases h
    | some st =>
      rw [hls] at h
      cases h
      rfl
  · intro s1 s2 h
    rw [h]
  · intro cols
    exact ⟨Finset.sort_sorted _ cols, Finset.sort_toFinset _ cols⟩

/-- **C8 witness.** Determinism and sortedness at concrete inputs. -/
theorem run_deterministic_sorted_manifest_witness :
    run engNoClock 20 2 ["1. e4"] = run engNoClock 20 2 ["1. e4"] ∧
      List.Sorted (· ≤ ·) (({"b", "a"} : Finset String).sort (· ≤ ·)) := by
  refine ⟨?_, ?_⟩
  · exact run_deterministic_sorted_manifest.1 engNoClock 20 2 ["1. e4"] ["1. e4"] rfl
  · exact (run_deterministic_sorted_manifest.2.2.2 {"b", "a"}).1

end PGN
